import Mathlib

/-!
Verification of the snapshot-to-session reconstruction engine of the
gnagstats repository.

The embedded code:
* `src/data_storage/db.py`, `Database.query_get_game_activity_sessions`
  (lines 273-339) and `Database._build_dataframe` (lines 353-395);
* `src/webserver/data_provider.py`, `DataProvider._compute_game_activity`
  (lines 91-140), `_compute_voice_activity_intervals` (lines 142-209) and
  `_compute_game_activity_intervals` (lines 211-276);
* `src/web_aggregations.py`, `build_voice_24h_timeline` (lines 232-293,
  same per-group walk as `_compute_voice_activity_intervals`).

Timestamps are sqlite INTEGER values, embedded as `ℤ`.  The
`collection_interval` column is a pandas float64 column (sqlite NULL is
loaded as NaN in a numeric column), embedded as `PF` below: a finite
rational, `+inf`, `-inf`, or NaN.  All comparisons on that column follow
IEEE semantics (any comparison with NaN is false), matching CPython.

The pandas `groupby` used by the engine iterates groups keyed by the
grouping columns; we enumerate keys in first-occurrence order (`dedup` of
the key list).  pandas presents them in sorted key order; no claim below
observes the relative order of different groups, so the two presentations
agree for every statement in this file.  `sort_values` is embedded as a
stable insertion sort on the sort key; the spec (§4.3.2a, §9) explicitly
leaves the order of equal-timestamp ties unspecified.
-/

namespace GnagStats

/-- Value of one cell of the pandas `collection_interval` column: a finite
float (embedded as a rational), one of the two IEEE infinities, or NaN
(which is also what a sqlite NULL becomes in the float64 column). -/
inductive PF where
  | fin (x : ℚ)
  | pinf
  | ninf
  | nan
deriving DecidableEq, Repr

/-- IEEE `<` on column values: every comparison involving NaN is false. -/
def PF.lt : PF → PF → Bool
  | .fin x, .fin y => decide (x < y)
  | .fin _, .pinf => true
  | .ninf, .fin _ => true
  | .ninf, .pinf => true
  | _, _ => false

/-- IEEE `≤` on column values: every comparison involving NaN is false. -/
def PF.le : PF → PF → Bool
  | .fin x, .fin y => decide (x ≤ y)
  | .fin _, .pinf => true
  | .pinf, .pinf => true
  | .ninf, .fin _ => true
  | .ninf, .pinf => true
  | .ninf, .ninf => true
  | _, _ => false

/-- IEEE addition: NaN absorbs, `inf + (-inf) = NaN`. -/
def PF.add : PF → PF → PF
  | .fin x, .fin y => .fin (x + y)
  | .fin _, .pinf => .pinf
  | .fin _, .ninf => .ninf
  | .pinf, .fin _ => .pinf
  | .pinf, .pinf => .pinf
  | .ninf, .fin _ => .ninf
  | .ninf, .ninf => .ninf
  | _, _ => .nan

/-- Multiplication by the literal 2, used for `max_gap = 2 * max(...)`. -/
def PF.double : PF → PF
  | .fin x => .fin (2 * x)
  | .pinf => .pinf
  | .ninf => .ninf
  | .nan => .nan

/-- Division by 2, used by the `median` of an even-length series
(numpy takes the mean of the two middle elements). -/
def PF.half : PF → PF
  | .fin x => .fin (x / 2)
  | .pinf => .pinf
  | .ninf => .ninf
  | .nan => .nan

/-- CPython `max(a, b)`: returns `b` exactly when `b > a` (so with a NaN
argument the result depends on the argument order, as in CPython). -/
def PF.pymax (a b : PF) : PF := if PF.lt a b then b else a

/-- IEEE subtraction, used by
`sess_df["duration_seconds"] = (sess_df["end_ts"] - sess_df["start_ts"]).astype(float)`
(db.py line 335). -/
def PF.sub : PF → PF → PF
  | .fin x, .fin y => .fin (x - y)
  | .fin _, .pinf => .ninf
  | .fin _, .ninf => .pinf
  | .pinf, .fin _ => .pinf
  | .pinf, .ninf => .pinf
  | .ninf, .fin _ => .ninf
  | .ninf, .pinf => .ninf
  | _, _ => .nan

/-- Validation predicate of the interval sanitizer, the condition under
which the `try` block of the engine keeps the raw cell: the trace
`interv = float(interv or default)` followed by
`if not math.isfinite(interv) or interv <= 0: raise ValueError` succeeds
without replacing the value exactly when the cell is a finite, strictly
positive number (NaN and 0.0 are falsy or non-finite, negatives and 0 fail
the guard, infinities fail `isfinite`). -/
def PF.isValid : PF → Bool
  | .fin x => decide (0 < x)
  | _ => false

/-- Predicate for `dropna`: in a float64 column only NaN cells (which is
what sqlite NULLs have become) are missing; infinities are kept. -/
def PF.isNA : PF → Bool
  | .nan => true
  | _ => false

/-- Order used to embed the median's internal sort (the cells reaching it
are NaN-free, where `PF.le` is total). -/
def pfLe (a b : PF) : Prop := PF.le a b = true

instance : DecidableRel pfLe := fun a b => instDecidableEqBool (PF.le a b) true

/-- Median of a pandas Series, as numpy computes it: sort ascending, take
the middle element, or the mean of the two middle elements for an
even-length series.  Only called on nonempty NaN-free lists by the code. -/
def pfMedian (l : List PF) : PF :=
  let s := List.insertionSort pfLe l
  if s.length % 2 = 1 then s.getD (s.length / 2) PF.nan
  else PF.half (PF.add (s.getD (s.length / 2 - 1) PF.nan) (s.getD (s.length / 2) PF.nan))

/-- Embeds
`default_interval = float(g["collection_interval"].dropna().median() if not g["collection_interval"].dropna().empty else 300.0)`
(db.py line 297, data_provider.py lines 165 and 234). -/
def groupDefault (cells : List PF) : PF :=
  let present := cells.filter (fun c => !c.isNA)
  if present.isEmpty then PF.fin 300 else pfMedian present

/-- Embeds the per-snapshot sanitizer (db.py lines 300-306 and the
identical `prev_interv` block at 312-318):
`interv = float(interv or default_interval)` then
`if not math.isfinite(interv) or interv <= 0: raise ValueError`, with the
`except` handler setting `interv = default_interval`.  Every invalid cell
(NaN from NULL, non-positive, or infinite) ends as `default_interval`,
whatever that value is; a valid cell passes through unchanged. -/
def effInterval (cell dflt : PF) : PF :=
  if cell.isValid then cell else dflt

/-- Rational form of the effective interval, used to relate the embedded
walk to the specification-level engine when the group default is finite. -/
def effQ (cell : PF) (d : ℚ) : ℚ :=
  match cell with
  | .fin x => if 0 < x then x else d
  | _ => d

/-- One row of the dataframe reaching the session loop of
`query_get_game_activity_sessions` (columns of `_build_dataframe`:
timestamp, user_name, game_name, collection_interval, source). -/
structure GameRow where
  timestamp : ℤ
  user_name : String
  game_name : String
  source : String
  collection_interval : PF
deriving DecidableEq, Repr

/-- One emitted game session (db.py lines 309/326: the `current` dict). -/
structure Session where
  user_name : String
  game_name : String
  source : String
  start_ts : ℤ
  end_ts : PF
deriving DecidableEq, Repr

/-- The open accumulator: `current = {"start_ts": ..., "end_ts": ...}`. -/
structure Acc where
  start_ts : ℤ
  end_ts : PF
deriving DecidableEq, Repr

/-- State of the per-group loop: emitted sessions, the open accumulator,
and `prev_row`. -/
structure WalkSt where
  sessions : List Acc
  current : Option Acc
  prev : Option GameRow
deriving Repr

/-- Body of `for _, row in g.iterrows():` in
`query_get_game_activity_sessions` (db.py lines 298-327); identical loop
body in `_compute_game_activity_intervals` (data_provider.py 235-264). -/
def gameStep (dflt : PF) (st : WalkSt) (row : GameRow) : WalkSt :=
  let ts := row.timestamp
  let interv := effInterval row.collection_interval dflt
  let snapshotEnd := PF.add (PF.fin (ts : ℚ)) interv
  match st.current with
  | none => ⟨st.sessions, some ⟨ts, snapshotEnd⟩, some row⟩
  | some cur =>
      let gap : ℤ := match st.prev with
        | some p => ts - p.timestamp
        | none => 0
      let prevInterv := match st.prev with
        | some p => effInterval p.collection_interval dflt
        | none => dflt
      let maxGap := PF.double (PF.pymax prevInterv interv)
      if PF.le (PF.fin (gap : ℚ)) maxGap then
        ⟨st.sessions,
         some (if PF.lt cur.end_ts snapshotEnd then Acc.mk cur.start_ts snapshotEnd else cur),
         some row⟩
      else
        ⟨(if PF.lt (PF.fin (cur.start_ts : ℚ)) cur.end_ts then st.sessions ++ [cur] else st.sessions),
         some ⟨ts, snapshotEnd⟩, some row⟩

/-- After the loop: `if current is not None and current["end_ts"] > current["start_ts"]: sessions.append(current)`
(db.py lines 328-329). -/
def closeWalk (st : WalkSt) : List Acc :=
  match st.current with
  | some cur =>
      if PF.lt (PF.fin (cur.start_ts : ℚ)) cur.end_ts then st.sessions ++ [cur] else st.sessions
  | none => st.sessions

/-- Sort key of `g.sort_values("timestamp")`. -/
def tsLe (a b : GameRow) : Prop := a.timestamp ≤ b.timestamp

instance : DecidableRel tsLe := fun a b => Int.decLe a.timestamp b.timestamp

instance : IsTotal GameRow tsLe := ⟨fun x y => le_total x.timestamp y.timestamp⟩

instance : IsTrans GameRow tsLe := ⟨fun _ _ _ h1 h2 => le_trans h1 h2⟩

/-- Per-group body of `query_get_game_activity_sessions` (db.py lines
293-329): sort the group by timestamp, compute the group default, run the
loop, close the final accumulator, and shape the session records. -/
def gameGroupSessions (user game source : String) (rows : List GameRow) : List Session :=
  let g := List.insertionSort tsLe rows
  let dflt := groupDefault (g.map (fun r => r.collection_interval))
  let st := g.foldl (gameStep dflt) ⟨[], none, none⟩
  (closeWalk st).map (fun a => ⟨user, game, source, a.start_ts, a.end_ts⟩)

/-- Grouping key of `df.groupby(["user_name", "game_name", "source"])`. -/
def rowKeyGSS (r : GameRow) : String × String × String := (r.user_name, r.game_name, r.source)

/-- Full engine of `query_get_game_activity_sessions`: one walk per
`(user_name, game_name, source)` group, results concatenated. -/
def gameSessions (rows : List GameRow) : List Session :=
  ((rows.map rowKeyGSS).dedup.map (fun k =>
    gameGroupSessions k.1 k.2.1 k.2.2 (rows.filter (fun r => decide (rowKeyGSS r = k))))).flatten

/-- One row of the voice-activity dataframe reaching
`_compute_voice_activity_intervals` (data_provider.py): columns used by
the walk are timestamp, user_name, channel_name, collection_interval. -/
structure VoiceRow where
  timestamp : ℤ
  user_name : String
  channel_name : String
  collection_interval : PF
deriving DecidableEq, Repr

/-- One emitted voice session. -/
structure VoiceSession where
  user_name : String
  channel_name : String
  start_ts : ℤ
  end_ts : PF
deriving DecidableEq, Repr

/-- Open voice accumulator: `current = {"channel_name": ..., "start_ts": ..., "end_ts": ...}`. -/
structure VAcc where
  channel_name : String
  start_ts : ℤ
  end_ts : PF
deriving DecidableEq, Repr

/-- State of the per-user voice loop. -/
structure VWalkSt where
  sessions : List VAcc
  current : Option VAcc
  prev : Option VoiceRow
deriving Repr

/-- Embeds `chan = row.get("channel_name", "?") or "?"` (data_provider.py
line 168): a missing or empty (falsy) channel name becomes `"?"`. -/
def chanOf (r : VoiceRow) : String := if r.channel_name = "" then "?" else r.channel_name

/-- Body of `for _, row in g.iterrows():` in
`_compute_voice_activity_intervals` (data_provider.py lines 166-196); the
only difference from the game walk is the channel-equality conjunct in
the merge condition (line 189). -/
def voiceStep (dflt : PF) (st : VWalkSt) (row : VoiceRow) : VWalkSt :=
  let ts := row.timestamp
  let chan := chanOf row
  let interv := effInterval row.collection_interval dflt
  let snapshotEnd := PF.add (PF.fin (ts : ℚ)) interv
  match st.current with
  | none => ⟨st.sessions, some ⟨chan, ts, snapshotEnd⟩, some row⟩
  | some cur =>
      let gap : ℤ := match st.prev with
        | some p => ts - p.timestamp
        | none => 0
      let prevInterv := match st.prev with
        | some p => effInterval p.collection_interval dflt
        | none => dflt
      let maxGap := PF.double (PF.pymax prevInterv interv)
      if chan = cur.channel_name ∧ PF.le (PF.fin (gap : ℚ)) maxGap then
        ⟨st.sessions,
         some (if PF.lt cur.end_ts snapshotEnd then VAcc.mk cur.channel_name cur.start_ts snapshotEnd else cur),
         some row⟩
      else
        ⟨(if PF.lt (PF.fin (cur.start_ts : ℚ)) cur.end_ts then st.sessions ++ [cur] else st.sessions),
         some ⟨chan, ts, snapshotEnd⟩, some row⟩

/-- After the loop (data_provider.py lines 197-198). -/
def closeVWalk (st : VWalkSt) : List VAcc :=
  match st.current with
  | some cur =>
      if PF.lt (PF.fin (cur.start_ts : ℚ)) cur.end_ts then st.sessions ++ [cur] else st.sessions
  | none => st.sessions

/-- Sort key of `g.sort_values("timestamp")` for voice rows. -/
def vTsLe (a b : VoiceRow) : Prop := a.timestamp ≤ b.timestamp

instance : DecidableRel vTsLe := fun a b => Int.decLe a.timestamp b.timestamp

instance : IsTotal VoiceRow vTsLe := ⟨fun x y => le_total x.timestamp y.timestamp⟩

instance : IsTrans VoiceRow vTsLe := ⟨fun _ _ _ h1 h2 => le_trans h1 h2⟩

/-- Per-user body of `_compute_voice_activity_intervals`
(data_provider.py lines 161-198). -/
def voiceGroupSessions (user : String) (rows : List VoiceRow) : List VoiceSession :=
  let g := List.insertionSort vTsLe rows
  let dflt := groupDefault (g.map (fun r => r.collection_interval))
  let st := g.foldl (voiceStep dflt) ⟨[], none, none⟩
  (closeVWalk st).map (fun a => ⟨user, a.channel_name, a.start_ts, a.end_ts⟩)

/-- Full voice engine: `for user, g in df.groupby("user_name")`. -/
def voiceSessions (rows : List VoiceRow) : List VoiceSession :=
  ((rows.map (fun r => r.user_name)).dedup.map (fun u =>
    voiceGroupSessions u (rows.filter (fun r => decide (r.user_name = u))))).flatten

/-- One source row entering `_compute_game_activity` (data_provider.py):
after the column selection at lines 108-109 only timestamp, user_name,
game_name and minutes_per_snapshot remain (collection_interval is
dropped). -/
structure GRow0 where
  timestamp : ℤ
  user_name : String
  game_name : String
  minutes_per_snapshot : PF
deriving DecidableEq, Repr

/-- A merged row, additionally stamped with its source
(`steam['source'] = 'steam'`, `discord['source'] = 'discord'`). -/
structure MergedRow where
  timestamp : ℤ
  user_name : String
  game_name : String
  minutes_per_snapshot : PF
  source : String
deriving DecidableEq, Repr

/-- Source stamping of `_compute_game_activity` (lines 99-100). -/
def tagSource (s : String) (r : GRow0) : MergedRow :=
  ⟨r.timestamp, r.user_name, r.game_name, r.minutes_per_snapshot, s⟩

/-- Embeds `combined['user_name'].astype(str) + '_' + combined['timestamp'].astype(str)`
(data_provider.py line 127; same construction in db.py line 391). -/
def rowKey (r : MergedRow) : String := r.user_name ++ "_" ++ toString r.timestamp

/-- Sort key of `combined.sort_values(by=['user_name', 'timestamp', 'source'])`
(data_provider.py line 122). -/
def mergeOrd (a b : MergedRow) : Prop :=
  a.user_name < b.user_name ∨
    (a.user_name = b.user_name ∧
      (a.timestamp < b.timestamp ∨ (a.timestamp = b.timestamp ∧ ¬b.source < a.source)))

instance : DecidableRel mergeOrd := fun a b =>
  inferInstanceAs (Decidable (a.user_name < b.user_name ∨
    (a.user_name = b.user_name ∧
      (a.timestamp < b.timestamp ∨ (a.timestamp = b.timestamp ∧ ¬b.source < a.source)))))

/-- Sort key of the final `result.sort_values(by=['user_name', 'timestamp'])`
(data_provider.py line 138). -/
def mergeOrd2 (a b : MergedRow) : Prop :=
  a.user_name < b.user_name ∨ (a.user_name = b.user_name ∧ a.timestamp ≤ b.timestamp)

instance : DecidableRel mergeOrd2 := fun a b =>
  inferInstanceAs (Decidable (a.user_name < b.user_name ∨
    (a.user_name = b.user_name ∧ a.timestamp ≤ b.timestamp)))

/-- Embeds `_compute_game_activity` (data_provider.py lines 91-140): tag
both streams, concatenate (the empty-frame special cases at lines 112-119
coincide with plain concatenation), sort, build the string keys, keep
every steam row and every discord row whose key has no steam counterpart,
and sort the result.  `_build_dataframe` (db.py lines 389-394) applies
the same keep rule. -/
def computeGameActivity (steam discord : List GRow0) : List MergedRow :=
  let steamT := steam.map (tagSource "steam")
  let discordT := discord.map (tagSource "discord")
  let combined := steamT ++ discordT
  let sorted := List.insertionSort mergeOrd combined
  let steamKeys := steamT.map rowKey
  let result := sorted.filter (fun r => decide (r.source = "steam" ∨ rowKey r ∉ steamKeys))
  List.insertionSort mergeOrd2 result

/-- Column fixup of `_compute_game_activity_intervals` (data_provider.py
lines 225-226): its input has no `collection_interval` column, so
`df["collection_interval"] = 300.0` stamps the constant 300.0 on every
row. -/
def toGameRow (r : MergedRow) : GameRow :=
  ⟨r.timestamp, r.user_name, r.game_name, r.source, PF.fin 300⟩

/-- Embeds `_compute_game_activity_intervals` (data_provider.py lines
211-276): after the constant-300 column fixup its group loop (lines
229-266) is textually identical to the loop of
`query_get_game_activity_sessions` embedded as `gameSessions`. -/
def computeGameActivityIntervals (rows : List MergedRow) : List Session :=
  gameSessions (rows.map toGameRow)

/-- Session reconstruction engine as the specification states it (spec
§4.3.2c and claim C1), over a sorted list of
(timestamp, effective_interval) pairs: the open accumulator is
`(start_ts, end_ts)`, `prev` is the previous snapshot with its effective
interval.  A subsequent snapshot is merged exactly when
`gap ≤ 2 * max(effective_interval_prev, effective_interval_cur)`, merging
sets `end_ts := max(end_ts, timestamp + effective_interval)`; otherwise
the accumulator is closed (emitted iff `end_ts > start_ts`) and reopened
at the snapshot; after the loop the final accumulator is emitted under
the same condition. -/
def specLoop : List (ℤ × ℚ) → (ℤ × ℚ) → (ℤ × ℚ) → List (ℤ × ℚ)
  | [], cur, _ => if (cur.1 : ℚ) < cur.2 then [cur] else []
  | (t, e) :: rest, cur, prev =>
      if (t : ℚ) - (prev.1 : ℚ) ≤ 2 * max prev.2 e then
        specLoop rest (cur.1, max cur.2 ((t : ℚ) + e)) (t, e)
      else
        (if (cur.1 : ℚ) < cur.2 then [cur] else []) ++ specLoop rest (t, (t : ℚ) + e) (t, e)

/-- Specification-level engine for one group: open the accumulator at the
first snapshot, then walk the rest with `specLoop`. -/
def specEngine : List (ℤ × ℚ) → List (ℤ × ℚ)
  | [] => []
  | (t, e) :: rest => specLoop rest (t, (t : ℚ) + e) (t, e)

/-- Strict-or-equal timestamp order used to show that two sorted
permutations of a group coincide. -/
def tsOrd (a b : GameRow) : Prop := a.timestamp < b.timestamp ∨ a = b

/-- Value of a list of decimal digit characters, used to invert the
decimal rendering `str(timestamp)` of the precedence-merge key. -/
def digitsVal : List Char → ℕ
  | [] => 0
  | c :: cs => (c.toNat - 48) * 10 ^ cs.length + digitsVal cs

/-- Disjointness of two sessions on their half-open real extents
`[start_ts, end_ts)`; a point `x` lies in a session when
`start_ts ≤ x` and `x < end_ts` (IEEE comparison against the `PF` end). -/
def sessDisjoint (a b : Session) : Prop :=
  ∀ x : ℚ, ¬(((a.start_ts : ℚ) ≤ x ∧ PF.lt (PF.fin x) a.end_ts = true) ∧
             ((b.start_ts : ℚ) ≤ x ∧ PF.lt (PF.fin x) b.end_ts = true))

/-!  ## Basic reduction lemmas for `PF` -/

@[simp] theorem PF.lt_fin_fin (x y : ℚ) : PF.lt (.fin x) (.fin y) = decide (x < y) := rfl

@[simp] theorem PF.le_fin_fin (x y : ℚ) : PF.le (.fin x) (.fin y) = decide (x ≤ y) := rfl

@[simp] theorem PF.add_fin_fin (x y : ℚ) : PF.add (.fin x) (.fin y) = .fin (x + y) := rfl

@[simp] theorem PF.double_fin (x : ℚ) : PF.double (.fin x) = .fin (2 * x) := rfl

@[simp] theorem PF.sub_fin_fin (x y : ℚ) : PF.sub (.fin x) (.fin y) = .fin (x - y) := rfl

@[simp] theorem PF.lt_fin_ninf (x : ℚ) : PF.lt (.fin x) .ninf = false := rfl

@[simp] theorem PF.lt_fin_nan (x : ℚ) : PF.lt (.fin x) .nan = false := rfl

@[simp] theorem PF.lt_fin_pinf (x : ℚ) : PF.lt (.fin x) .pinf = true := rfl

theorem PF.pymax_fin_fin (x y : ℚ) : PF.pymax (.fin x) (.fin y) = .fin (max x y) := by
  rcases lt_or_le x y with h | h
  · simp [PF.pymax, h, max_eq_right h.le]
  · simp [PF.pymax, not_lt.mpr h, max_eq_left h]

/-- With a finite group default, the sanitizer always produces the finite
value `effQ`. -/
theorem effInterval_fin (cell : PF) (d : ℚ) :
    effInterval cell (PF.fin d) = PF.fin (effQ cell d) := by
  cases cell with
  | fin x =>
      by_cases h : 0 < x
      · simp [effInterval, effQ, PF.isValid, h]
      · simp [effInterval, effQ, PF.isValid, h]
  | pinf => rfl
  | ninf => rfl
  | nan => rfl

/-!  ## Bridge between the embedded walk and the specification engine -/

theorem foldl_gameStep_spec (d : ℚ) (rest : List GameRow) :
    ∀ (ss : List Acc) (a : ℤ) (b : ℚ) (p : GameRow),
      closeWalk (rest.foldl (gameStep (PF.fin d)) ⟨ss, some ⟨a, PF.fin b⟩, some p⟩) =
        ss ++ (specLoop (rest.map (fun r => (r.timestamp, effQ r.collection_interval d)))
                 (a, b) (p.timestamp, effQ p.collection_interval d)).map
                (fun q => Acc.mk q.1 (PF.fin q.2)) := by
  induction rest with
  | nil =>
      intro ss a b p
      by_cases h : (a : ℚ) < b
      · simp [closeWalk, specLoop, h]
      · simp [closeWalk, specLoop, h]
  | cons r rest ih =>
      intro ss a b p
      simp only [List.foldl_cons, List.map_cons]
      rw [show (GnagStats.gameStep (PF.fin d) ⟨ss, some ⟨a, PF.fin b⟩, some p⟩ r) =
          (if ((r.timestamp : ℚ) - (p.timestamp : ℚ) ≤
                2 * max (effQ p.collection_interval d) (effQ r.collection_interval d)) then
            WalkSt.mk ss
              (some (Acc.mk a (PF.fin (max b ((r.timestamp : ℚ) + effQ r.collection_interval d)))))
              (some r)
          else
            WalkSt.mk (if (a : ℚ) < b then ss ++ [Acc.mk a (PF.fin b)] else ss)
              (some (Acc.mk r.timestamp (PF.fin ((r.timestamp : ℚ) + effQ r.collection_interval d))))
              (some r)) from ?_]
      · by_cases h : ((r.timestamp : ℚ) - (p.timestamp : ℚ) ≤
            2 * max (effQ p.collection_interval d) (effQ r.collection_interval d))
        · rw [if_pos h, ih]
          rw [specLoop, if_pos h]
        · rw [if_neg h, ih]
          rw [specLoop, if_neg h]
          by_cases hab : (a : ℚ) < b
          · simp [hab, List.append_assoc]
          · simp [hab]
      · simp only [gameStep, effInterval_fin, PF.add_fin_fin, PF.pymax_fin_fin, PF.double_fin,
          PF.le_fin_fin, PF.lt_fin_fin]
        have hcast : (((r.timestamp - p.timestamp : ℤ) : ℚ)) =
            (r.timestamp : ℚ) - (p.timestamp : ℚ) := by push_cast; ring
        rw [hcast]
        by_cases h : ((r.timestamp : ℚ) - (p.timestamp : ℚ) ≤
            2 * max (effQ p.collection_interval d) (effQ r.collection_interval d))
        · rw [if_pos (by simpa using h), if_pos h]
          rcases lt_or_le b ((r.timestamp : ℚ) + effQ r.collection_interval d) with hb | hb
          · simp [hb, max_eq_right hb.le]
          · simp [not_lt.mpr hb, max_eq_left hb]
        · rw [if_neg (by simpa using h), if_neg h]
          by_cases hab : (a : ℚ) < b
          · simp [hab]
          · simp [hab]

theorem gameGroupSessions_eq_spec (u gm s : String) (rows : List GameRow) (d : ℚ)
    (h : groupDefault ((List.insertionSort tsLe rows).map (fun r => r.collection_interval)) =
      PF.fin d) :
    gameGroupSessions u gm s rows =
      (specEngine ((List.insertionSort tsLe rows).map
          (fun r => (r.timestamp, effQ r.collection_interval d)))).map
        (fun q => Session.mk u gm s q.1 (PF.fin q.2)) := by
  simp only [gameGroupSessions, h]
  cases hs : List.insertionSort tsLe rows with
  | nil => simp [closeWalk, specEngine]
  | cons r rest =>
      have hstep : gameStep (PF.fin d) ⟨[], none, none⟩ r =
          ⟨[], some ⟨r.timestamp, PF.fin ((r.timestamp : ℚ) + effQ r.collection_interval d)⟩,
            some r⟩ := by
        simp [gameStep, effInterval_fin]
      simp only [List.foldl_cons, List.map_cons, specEngine, hstep]
      rw [foldl_gameStep_spec]
      simp [List.map_map, Function.comp]

/-!  ## Guard invariant: only accumulators with `end_ts > start_ts` are emitted -/

theorem gameStep_guard (dflt : PF) (st : WalkSt) (row : GameRow)
    (h : ∀ a ∈ st.sessions, PF.lt (PF.fin (a.start_ts : ℚ)) a.end_ts = true) :
    ∀ a ∈ (gameStep dflt st row).sessions, PF.lt (PF.fin (a.start_ts : ℚ)) a.end_ts = true := by
  unfold gameStep
  cases st.current with
  | none => simpa using h
  | some cur =>
      simp only []
      split
      · simpa using h
      · split
        · rename_i hlt
          intro a ha
          simp only [List.mem_append, List.mem_singleton] at ha
          rcases ha with ha | rfl
          · exact h a ha
          · exact hlt
        · simpa using h

theorem foldl_gameStep_guard (dflt : PF) (rows : List GameRow) :
    ∀ st : WalkSt, (∀ a ∈ st.sessions, PF.lt (PF.fin (a.start_ts : ℚ)) a.end_ts = true) →
      ∀ a ∈ (rows.foldl (gameStep dflt) st).sessions,
        PF.lt (PF.fin (a.start_ts : ℚ)) a.end_ts = true := by
  induction rows with
  | nil => intro st h; simpa using h
  | cons r rows ih =>
      intro st h
      exact ih _ (gameStep_guard dflt st r h)

theorem closeWalk_guard (st : WalkSt)
    (h : ∀ a ∈ st.sessions, PF.lt (PF.fin (a.start_ts : ℚ)) a.end_ts = true) :
    ∀ a ∈ closeWalk st, PF.lt (PF.fin (a.start_ts : ℚ)) a.end_ts = true := by
  unfold closeWalk
  cases st.current with
  | none => simpa using h
  | some cur =>
      simp only []
      split
      · rename_i hlt
        intro a ha
        simp only [List.mem_append, List.mem_singleton] at ha
        rcases ha with ha | rfl
        · exact h a ha
        · exact hlt
      · simpa using h

theorem gameGroupSessions_guard (u gm s : String) (rows : List GameRow) :
    ∀ sess ∈ gameGroupSessions u gm s rows,
      PF.lt (PF.fin (sess.start_ts : ℚ)) sess.end_ts = true := by
  intro sess hs
  simp only [gameGroupSessions, List.mem_map] at hs
  obtain ⟨a, ha, rfl⟩ := hs
  exact closeWalk_guard _ (foldl_gameStep_guard _ _ _ (by simp)) a ha

theorem gameSessions_guard (rows : List GameRow) :
    ∀ sess ∈ gameSessions rows, PF.lt (PF.fin (sess.start_ts : ℚ)) sess.end_ts = true := by
  intro sess hs
  simp only [gameSessions, List.mem_flatten, List.mem_map] at hs
  obtain ⟨l, ⟨k, _, rfl⟩, hsl⟩ := hs
  exact gameGroupSessions_guard _ _ _ _ sess hsl

/-!  ## The specification engine under a constant positive interval -/

theorem specLoop_const (c : ℚ) (hc : 0 < c) :
    ∀ (l : List (ℤ × ℚ)) (a p : ℤ),
      (∀ q ∈ l, q.2 = c) →
      List.Chain' (fun x y : ℤ × ℚ => x.1 ≤ y.1) (((p : ℤ), c) :: l) →
      (a : ℚ) ≤ (p : ℚ) →
      ∃ e out, specLoop l (a, (p : ℚ) + c) (p, c) = (a, e) :: out ∧
        (p : ℚ) + c ≤ e ∧
        List.Pairwise (fun s t : ℤ × ℚ => s.2 ≤ ((t.1 : ℤ) : ℚ)) ((a, e) :: out) ∧
        ∀ s ∈ ((a, e) :: out), ((s.1 : ℤ) : ℚ) < s.2 := by
  intro l
  induction l with
  | nil =>
      intro a p _ _ hap
      have hlt : (a : ℚ) < (p : ℚ) + c := lt_of_le_of_lt hap (by linarith)
      refine ⟨(p : ℚ) + c, [], ?_, le_refl _, by simp, by simpa using hlt⟩
      simp [specLoop, hlt]
  | cons q rest ih =>
      intro a p hall hch hap
      obtain ⟨t, e⟩ := q
      have he : c = e := (hall (t, e) (by simp)).symm
      subst he
      have hpt : (p : ℤ) ≤ t := by
        have := List.chain'_cons.mp hch
        exact this.1
      have hch2 : List.Chain' (fun x y : ℤ × ℚ => x.1 ≤ y.1) ((t, c) :: rest) :=
        (List.chain'_cons.mp hch).2
      have hrest : ∀ q ∈ rest, q.2 = c := fun q hq => hall q (by simp [hq])
      by_cases hgap : (t : ℚ) - (p : ℚ) ≤ 2 * max c c
      · have hmax : max ((p : ℚ) + c) ((t : ℚ) + c) = (t : ℚ) + c := by
          have : (p : ℚ) ≤ (t : ℚ) := by exact_mod_cast hpt
          exact max_eq_right (by linarith)
        have hat : (a : ℚ) ≤ (t : ℚ) :=
          le_trans hap (by exact_mod_cast hpt)
        obtain ⟨e2, out2, heq, hle, hpw, hpos⟩ := ih a t hrest hch2 hat
        refine ⟨e2, out2, ?_, ?_, hpw, hpos⟩
        · rw [specLoop, if_pos hgap, hmax, heq]
        · have : (p : ℚ) ≤ (t : ℚ) := by exact_mod_cast hpt
          linarith
      · obtain ⟨e2, out2, heq, hle, hpw, hpos⟩ := ih t t hrest hch2 (le_refl _)
        have hlt : (a : ℚ) < (p : ℚ) + c := lt_of_le_of_lt hap (by linarith)
        have hclose : (p : ℚ) + c < (t : ℚ) := by
          push_neg at hgap
          have : max c c = c := max_self c
          rw [this] at hgap
          linarith
        refine ⟨(p : ℚ) + c, (t, e2) :: out2, ?_, le_refl _, ?_, ?_⟩
        · rw [specLoop, if_neg hgap, if_pos hlt, heq]
          simp
        · constructor
          · intro s hs
            rcases List.mem_cons.mp hs with rfl | hs
            · exact hclose.le
            · have h1 : e2 ≤ ((s.1 : ℤ) : ℚ) := (List.pairwise_cons.mp hpw).1 s hs
              have h2 : (t : ℚ) + c ≤ e2 := hle
              show (p : ℚ) + c ≤ ((s.1 : ℤ) : ℚ)
              linarith
          · exact hpw
        · intro s hs
          rcases List.mem_cons.mp hs with rfl | hs
          · simpa using hlt
          · exact hpos s hs

theorem specLoop_cover :
    ∀ (l : List (ℤ × ℚ)) (a : ℤ) (b : ℚ) (p : ℤ) (pe : ℚ),
      (a : ℚ) < b →
      (∀ q ∈ l, 0 < q.2) →
      List.Chain' (fun x y : ℤ × ℚ => x.1 ≤ y.1) ((p, pe) :: l) →
      (a : ℚ) ≤ (p : ℚ) →
      (∃ s ∈ specLoop l (a, b) (p, pe), s.1 = a ∧ b ≤ s.2) ∧
        (∀ q ∈ l, ∃ s ∈ specLoop l (a, b) (p, pe),
          ((s.1 : ℤ) : ℚ) ≤ ((q.1 : ℤ) : ℚ) ∧ ((q.1 : ℤ) : ℚ) + q.2 ≤ s.2) := by
  intro l
  induction l with
  | nil =>
      intro a b p pe hab _ _ _
      refine ⟨⟨(a, b), ?_, rfl, le_refl _⟩, by simp⟩
      simp [specLoop, hab]
  | cons q rest ih =>
      intro a b p pe hab hpos hch hap
      obtain ⟨t, e⟩ := q
      have hte : (0 : ℚ) < e := hpos (t, e) (by simp)
      have hpt : (p : ℤ) ≤ t := (List.chain'_cons.mp hch).1
      have hch2 : List.Chain' (fun x y : ℤ × ℚ => x.1 ≤ y.1) ((t, e) :: rest) :=
        (List.chain'_cons.mp hch).2
      have hrpos : ∀ q ∈ rest, 0 < q.2 := fun q hq => hpos q (by simp [hq])
      have hat : (a : ℚ) ≤ (t : ℚ) := le_trans hap (by exact_mod_cast hpt)
      by_cases hgap : (t : ℚ) - (p : ℚ) ≤ 2 * max pe e
      · have hab2 : (a : ℚ) < max b ((t : ℚ) + e) := lt_of_lt_of_le hab (le_max_left _ _)
        obtain ⟨hfirst, hrest⟩ := ih a (max b ((t : ℚ) + e)) t e hab2 hrpos hch2 hat
        obtain ⟨s, hsmem, hs1, hs2⟩ := hfirst
        rw [specLoop, if_pos hgap]
        refine ⟨⟨s, hsmem, hs1, le_trans (le_max_left _ _) hs2⟩, ?_⟩
        intro q hq
        rcases List.mem_cons.mp hq with rfl | hq
        · exact ⟨s, hsmem, by rw [hs1]; exact hat, le_trans (le_max_right _ _) hs2⟩
        · exact hrest q hq
      · have htt : (t : ℚ) < (t : ℚ) + e := by linarith
        obtain ⟨hfirst, hrest⟩ := ih t ((t : ℚ) + e) t e htt hrpos hch2 (le_refl _)
        rw [specLoop, if_neg hgap, if_pos hab]
        refine ⟨⟨(a, b), by simp, rfl, le_refl _⟩, ?_⟩
        intro q hq
        rcases List.mem_cons.mp hq with rfl | hq
        · obtain ⟨s, hsmem, hs1, hs2⟩ := hfirst
          exact ⟨s, by simp [hsmem], by rw [hs1], hs2⟩
        · obtain ⟨s, hsmem, hs1, hs2⟩ := hrest q hq
          exact ⟨s, by simp [hsmem], hs1, hs2⟩

/-!  ## Finiteness of the group default over all-finite cells -/

theorem getD_mem_of_lt {α : Type} (l : List α) (i : ℕ) (d : α) (h : i < l.length) :
    l.getD i d ∈ l := by
  rw [List.getD_eq_getElem?_getD, List.getElem?_eq_getElem h]
  exact List.getElem_mem h

theorem pfMedian_fin (l : List PF) (h : ∀ x ∈ l, ∃ q : ℚ, x = PF.fin q) (hne : l ≠ []) :
    ∃ d : ℚ, pfMedian l = PF.fin d := by
  have hperm := List.perm_insertionSort pfLe l
  have hmem : ∀ x ∈ List.insertionSort pfLe l, ∃ q : ℚ, x = PF.fin q :=
    fun x hx => h x (hperm.mem_iff.mp hx)
  have hpos : 0 < (List.insertionSort pfLe l).length := by
    rw [hperm.length_eq]
    exact List.length_pos.mpr hne
  simp only [pfMedian]
  split
  · exact hmem _ (getD_mem_of_lt _ _ _ (Nat.div_lt_self hpos (by norm_num)))
  · obtain ⟨q1, h1⟩ := hmem _ (getD_mem_of_lt (List.insertionSort pfLe l)
      ((List.insertionSort pfLe l).length / 2 - 1) PF.nan
      (lt_of_le_of_lt (Nat.sub_le _ _) (Nat.div_lt_self hpos (by norm_num))))
    obtain ⟨q2, h2⟩ := hmem _ (getD_mem_of_lt (List.insertionSort pfLe l)
      ((List.insertionSort pfLe l).length / 2) PF.nan (Nat.div_lt_self hpos (by norm_num)))
    rw [h1, h2]
    exact ⟨(q1 + q2) / 2, rfl⟩

theorem groupDefault_fin (cells : List PF) (h : ∀ x ∈ cells, ∃ q : ℚ, x = PF.fin q) :
    ∃ d : ℚ, groupDefault cells = PF.fin d := by
  have hp : cells.filter (fun c => !c.isNA) = cells := by
    apply List.filter_eq_self.mpr
    intro a ha
    obtain ⟨q, rfl⟩ := h a ha
    rfl
  simp only [groupDefault, hp]
  by_cases hne : cells.isEmpty
  · rw [if_pos hne]
    exact ⟨300, rfl⟩
  · rw [if_neg hne]
    exact pfMedian_fin cells h (by simpa [List.isEmpty_iff] using hne)

/-!  ## Claim theorems -/

/-- C1: for every group of snapshots sorted ascending by timestamp, the
reconstruction engine walks them with one open accumulator: a subsequent
snapshot is merged into the open session iff
`timestamp_i - timestamp_prev ≤ 2 * max(effective_interval_prev, effective_interval_i)`,
in which case `end_ts` becomes `max(end_ts, timestamp_i + effective_interval_i)`
and `start_ts` is unchanged; otherwise the open session is closed (emitted
iff `end_ts > start_ts`) and a new accumulator opens with
`start_ts = timestamp_i`, `end_ts = timestamp_i + effective_interval_i`;
the final accumulator is emitted after the loop under the same condition.
Stated as: the embedded walk of `query_get_game_activity_sessions` equals
the specification-level engine `specEngine` (which is literally the
claim's loop) on the effective intervals, whenever the group default is a
finite value. -/
theorem C1_walk_matches_spec (u gm s : String) (rows : List GameRow) (d : ℚ)
    (h : groupDefault ((List.insertionSort tsLe rows).map (fun r => r.collection_interval)) =
      PF.fin d) :
    gameGroupSessions u gm s rows =
      (specEngine ((List.insertionSort tsLe rows).map
          (fun r => (r.timestamp, effQ r.collection_interval d)))).map
        (fun q => Session.mk u gm s q.1 (PF.fin q.2)) :=
  gameGroupSessions_eq_spec u gm s rows d h

/-- Witness for C1 at a concrete two-snapshot group (the spec's
gap-splitting example: snapshots at t=0 and t=1000, interval 300). -/
theorem C1_walk_matches_spec_witness :
    gameGroupSessions "u" "g" "s"
        [⟨0, "u", "g", "s", PF.fin 300⟩, ⟨1000, "u", "g", "s", PF.fin 300⟩] =
      (specEngine ((List.insertionSort tsLe
          [⟨0, "u", "g", "s", PF.fin 300⟩, ⟨1000, "u", "g", "s", PF.fin 300⟩]).map
          (fun r => (r.timestamp, effQ r.collection_interval 300)))).map
        (fun q => Session.mk "u" "g" "s" q.1 (PF.fin q.2)) :=
  C1_walk_matches_spec "u" "g" "s"
    [⟨0, "u", "g", "s", PF.fin 300⟩, ⟨1000, "u", "g", "s", PF.fin 300⟩] 300
    (by with_unfolding_all rfl)

/-- C5 counterexample: with heterogeneous intervals the engine emits
overlapping sessions for one group.  Snapshots (t=0, interval 10000),
(t=100, interval 1), (t=300, interval 1): the second snapshot merges
(tolerance 20000) without extending `end_ts = 10000`, the third closes
(gap 200 > tolerance 2) and reopens at t=300, so the sessions
`[0, 10000)` and `[300, 301)` overlap at x = 300. -/
theorem C5_counterexample :
    ¬ List.Pairwise sessDisjoint
        (gameGroupSessions "u" "g" "s"
          [⟨0, "u", "g", "s", PF.fin 10000⟩, ⟨100, "u", "g", "s", PF.fin 1⟩,
           ⟨300, "u", "g", "s", PF.fin 1⟩]) := by
  intro hpw
  have heq : gameGroupSessions "u" "g" "s"
      [⟨0, "u", "g", "s", PF.fin 10000⟩, ⟨100, "u", "g", "s", PF.fin 1⟩,
       ⟨300, "u", "g", "s", PF.fin 1⟩] =
      [⟨"u", "g", "s", 0, PF.fin 10000⟩, ⟨"u", "g", "s", 300, PF.fin 301⟩] := by
    with_unfolding_all rfl
  rw [heq] at hpw
  have hd := (List.pairwise_cons.mp hpw).1 ⟨"u", "g", "s", 300, PF.fin 301⟩ (by simp)
  refine hd 300 ⟨⟨by norm_num, ?_⟩, ⟨by norm_num, ?_⟩⟩
  · simp only [PF.lt_fin_fin, decide_eq_true_eq]
    norm_num
  · simp only [PF.lt_fin_fin, decide_eq_true_eq]
    norm_num

/-- C5 (amended): when every snapshot of the group carries one and the
same valid effective interval `c > 0` (in particular under an unchanged
poll cadence), no two emitted sessions of the group overlap in
`[start_ts, end_ts)`. -/
theorem C5_amended (u gm s : String) (c : ℚ) (rows : List GameRow) (hc : 0 < c)
    (hall : ∀ r ∈ rows, r.collection_interval = PF.fin c) :
    List.Pairwise sessDisjoint (gameGroupSessions u gm s rows) := by
  have hallS : ∀ r ∈ List.insertionSort tsLe rows, r.collection_interval = PF.fin c :=
    fun r hr => hall r ((List.perm_insertionSort tsLe rows).mem_iff.mp hr)
  obtain ⟨d, hd⟩ := groupDefault_fin
    ((List.insertionSort tsLe rows).map (fun r => r.collection_interval))
    (by
      intro x hx
      obtain ⟨r, hr, rfl⟩ := List.mem_map.mp hx
      exact ⟨c, hallS r hr⟩)
  rw [gameGroupSessions_eq_spec u gm s rows d hd]
  have hmap : (List.insertionSort tsLe rows).map
      (fun r => (r.timestamp, effQ r.collection_interval d)) =
      (List.insertionSort tsLe rows).map (fun r => (r.timestamp, c)) := by
    apply List.map_congr_left
    intro r hr
    rw [hallS r hr]
    simp [effQ, hc]
  rw [hmap]
  have hchain : List.Chain' (fun x y : ℤ × ℚ => x.1 ≤ y.1)
      ((List.insertionSort tsLe rows).map (fun r => (r.timestamp, c))) := by
    apply List.Pairwise.chain'
    rw [List.pairwise_map]
    exact List.sorted_insertionSort tsLe rows
  cases hs : (List.insertionSort tsLe rows).map (fun r => (r.timestamp, c)) with
  | nil => simp [specEngine]
  | cons q rest =>
      rw [hs] at hchain
      have hallc : ∀ q2 ∈ q :: rest, q2.2 = c := by
        intro q2 hq2
        have hq2m : q2 ∈ (List.insertionSort tsLe rows).map (fun r => (r.timestamp, c)) := by
          rw [hs]; exact hq2
        obtain ⟨r, -, hr⟩ := List.mem_map.mp hq2m
        rw [← hr]
      obtain ⟨t, e⟩ := q
      have he : c = e := (hallc (t, e) (by simp)).symm
      subst he
      obtain ⟨eout, out, heq, -, hpw, -⟩ := specLoop_const c hc rest t t
        (fun q2 hq2 => hallc q2 (List.mem_cons_of_mem _ hq2)) hchain (le_refl _)
      show List.Pairwise sessDisjoint
        ((specLoop rest (t, (t : ℚ) + c) (t, c)).map
          (fun q2 => Session.mk u gm s q2.1 (PF.fin q2.2)))
      rw [heq, List.pairwise_map]
      refine hpw.imp ?_
      intro a b hab x hx
      obtain ⟨⟨hx1, hx2⟩, ⟨hy1, hy2⟩⟩ := hx
      simp only [PF.lt_fin_fin, decide_eq_true_eq] at hx2 hy2
      have : x < ((b.1 : ℤ) : ℚ) := lt_of_lt_of_le hx2 hab
      exact absurd hy1 (not_le.mpr this)

/-- Witness for C5 (amended) at a concrete two-snapshot group with
constant interval 300. -/
theorem C5_amended_witness :
    List.Pairwise sessDisjoint
      (gameGroupSessions "u" "g" "s"
        [⟨0, "u", "g", "s", PF.fin 300⟩, ⟨1000, "u", "g", "s", PF.fin 300⟩]) :=
  C5_amended "u" "g" "s" 300
    [⟨0, "u", "g", "s", PF.fin 300⟩, ⟨1000, "u", "g", "s", PF.fin 300⟩]
    (by norm_num)
    (by
      intro r hr
      rcases List.mem_cons.mp hr with rfl | hr
      · rfl
      · rcases List.mem_cons.mp hr with rfl | hr
        · rfl
        · cases hr)

/-- C7 counterexample: emitted `end_ts` values need not be integers.  In
the group (t=0, interval 1), (t=1, interval 2), (t=2, interval NULL), the
group default is the median `3/2` of the two present values, the third
snapshot extends the session to `end_ts = 2 + 3/2 = 7/2`, and `7/2` is
not an integer. -/
theorem C7_counterexample :
    gameGroupSessions "u" "g" "s"
        [⟨0, "u", "g", "s", PF.fin 1⟩, ⟨1, "u", "g", "s", PF.fin 2⟩,
         ⟨2, "u", "g", "s", PF.nan⟩] =
      [⟨"u", "g", "s", 0, PF.fin (7 / 2)⟩] ∧
    ¬ ∃ n : ℤ, ((7 : ℚ) / 2) = (n : ℚ) := by
  constructor
  · with_unfolding_all rfl
  · rintro ⟨n, hn⟩
    have h2 : ((7 : ℚ) / 2).den = 2 := by with_unfolding_all rfl
    rw [hn, Rat.den_intCast] at h2
    exact absurd h2 (by norm_num)

/-- C7 (amended): `start_ts` is always an integer but `end_ts` is a float
that can be non-integral; still every emitted session satisfies
`end_ts > start_ts` and has strictly positive
`duration_seconds = end_ts - start_ts`, for any input: a session with
zero or negative duration is never emitted. -/
theorem C7_amended (rows : List GameRow) :
    ∀ sess ∈ gameSessions rows,
      PF.lt (PF.fin (sess.start_ts : ℚ)) sess.end_ts = true ∧
      PF.lt (PF.fin 0) (PF.sub sess.end_ts (PF.fin (sess.start_ts : ℚ))) = true := by
  intro sess hs
  have h := gameSessions_guard rows sess hs
  refine ⟨h, ?_⟩
  cases hend : sess.end_ts with
  | fin e =>
      rw [hend] at h
      simp only [PF.lt_fin_fin, decide_eq_true_eq] at h
      simp only [PF.sub_fin_fin, PF.lt_fin_fin, decide_eq_true_eq]
      linarith
  | pinf => rfl
  | ninf => rw [hend] at h; exact absurd h (by simp)
  | nan => rw [hend] at h; exact absurd h (by simp)

/-- Witness for C7 (amended) at a concrete one-snapshot input. -/
theorem C7_amended_witness :
    PF.lt (PF.fin ((0 : ℤ) : ℚ)) (PF.fin 300) = true ∧
    PF.lt (PF.fin 0) (PF.sub (PF.fin 300) (PF.fin ((0 : ℤ) : ℚ))) = true := by
  have hmem : (⟨"u", "g", "s", 0, PF.fin 300⟩ : Session) ∈
      gameSessions [⟨0, "u", "g", "s", PF.fin 300⟩] := by
    have heq : gameSessions [⟨0, "u", "g", "s", PF.fin 300⟩] =
        [⟨"u", "g", "s", 0, PF.fin 300⟩] := by with_unfolding_all rfl
    rw [heq]
    exact List.mem_singleton.mpr rfl
  exact C7_amended [⟨0, "u", "g", "s", PF.fin 300⟩] ⟨"u", "g", "s", 0, PF.fin 300⟩ hmem

/-- C9: whenever the group default is finite and every snapshot's
effective interval is strictly positive (the regime the spec's validator
promises), each input snapshot's effective presence interval
`[timestamp, timestamp + effective_interval)` is contained in the
`[start_ts, end_ts)` of some emitted session of its group: its start is
at or after the session's `start_ts` and its end at or before the
session's `end_ts`, so no snapshot's presence interval is lost from the
union of emitted sessions. -/
theorem C9_coverage (u gm s : String) (rows : List GameRow) (d : ℚ)
    (hd : groupDefault ((List.insertionSort tsLe rows).map (fun r => r.collection_interval)) =
      PF.fin d)
    (hpos : ∀ r ∈ rows, 0 < effQ r.collection_interval d) :
    ∀ r ∈ rows, ∃ sess ∈ gameGroupSessions u gm s rows, ∃ e : ℚ,
      sess.end_ts = PF.fin e ∧
      (sess.start_ts : ℚ) ≤ (r.timestamp : ℚ) ∧
      (r.timestamp : ℚ) + effQ r.collection_interval d ≤ e := by
  intro r hr
  have hrS : r ∈ List.insertionSort tsLe rows :=
    (List.perm_insertionSort tsLe rows).mem_iff.mpr hr
  rw [gameGroupSessions_eq_spec u gm s rows d hd]
  have hposS : ∀ q ∈ (List.insertionSort tsLe rows).map
      (fun r2 => (r2.timestamp, effQ r2.collection_interval d)), 0 < q.2 := by
    intro q hq
    obtain ⟨r2, hr2, rfl⟩ := List.mem_map.mp hq
    exact hpos r2 ((List.perm_insertionSort tsLe rows).mem_iff.mp hr2)
  have hchain : List.Chain' (fun x y : ℤ × ℚ => x.1 ≤ y.1)
      ((List.insertionSort tsLe rows).map
        (fun r2 => (r2.timestamp, effQ r2.collection_interval d))) := by
    apply List.Pairwise.chain'
    rw [List.pairwise_map]
    exact List.sorted_insertionSort tsLe rows
  have hmem : (r.timestamp, effQ r.collection_interval d) ∈
      (List.insertionSort tsLe rows).map
        (fun r2 => (r2.timestamp, effQ r2.collection_interval d)) :=
    List.mem_map_of_mem _ hrS
  cases hs : (List.insertionSort tsLe rows).map
      (fun r2 => (r2.timestamp, effQ r2.collection_interval d)) with
  | nil => rw [hs] at hmem; cases hmem
  | cons q0 rest =>
      rw [hs] at hmem hchain hposS
      obtain ⟨t0, e0⟩ := q0
      have he0 : (0 : ℚ) < e0 := hposS (t0, e0) (by simp)
      have hrest0 : ∀ q ∈ rest, (0 : ℚ) < q.2 :=
        fun q hq => hposS q (List.mem_cons_of_mem _ hq)
      obtain ⟨hfirst, hrestcov⟩ := specLoop_cover rest t0 ((t0 : ℚ) + e0) t0 e0
        (by linarith) hrest0 hchain (le_refl _)
      show ∃ sess ∈ (specLoop rest (t0, (t0 : ℚ) + e0) (t0, e0)).map
          (fun q => Session.mk u gm s q.1 (PF.fin q.2)), ∃ e : ℚ,
        sess.end_ts = PF.fin e ∧
        (sess.start_ts : ℚ) ≤ (r.timestamp : ℚ) ∧
        (r.timestamp : ℚ) + effQ r.collection_interval d ≤ e
      rcases List.mem_cons.mp hmem with heq | hmemr
      · obtain ⟨s1, hs1mem, hs11, hs12⟩ := hfirst
        have ht : r.timestamp = t0 := congrArg Prod.fst heq
        have he : effQ r.collection_interval d = e0 := congrArg Prod.snd heq
        refine ⟨Session.mk u gm s s1.1 (PF.fin s1.2), List.mem_map_of_mem _ hs1mem,
          s1.2, rfl, ?_, ?_⟩
        · show ((s1.1 : ℤ) : ℚ) ≤ (r.timestamp : ℚ)
          rw [hs11, ht]
        · rw [ht, he]
          exact hs12
      · obtain ⟨s1, hs1mem, hs11, hs12⟩ := hrestcov (r.timestamp, effQ r.collection_interval d) hmemr
        exact ⟨Session.mk u gm s s1.1 (PF.fin s1.2), List.mem_map_of_mem _ hs1mem,
          s1.2, rfl, hs11, hs12⟩

/-- Witness for C9 at a concrete one-snapshot group. -/
theorem C9_coverage_witness :
    ∃ sess ∈ gameGroupSessions "u" "g" "s" [⟨0, "u", "g", "s", PF.fin 300⟩], ∃ e : ℚ,
      sess.end_ts = PF.fin e ∧
      (sess.start_ts : ℚ) ≤ ((0 : ℤ) : ℚ) ∧
      ((0 : ℤ) : ℚ) + effQ (PF.fin 300) 300 ≤ e :=
  C9_coverage "u" "g" "s" [⟨0, "u", "g", "s", PF.fin 300⟩] 300
    (by with_unfolding_all rfl)
    (by
      intro r hr
      rcases List.mem_cons.mp hr with rfl | hr
      · norm_num [effQ]
      · cases hr)
    ⟨0, "u", "g", "s", PF.fin 300⟩ (by simp)

/-!  ## Order independence (C8) -/

theorem sorted_eq_of_perm {l1 l2 : List GameRow}
    (hperm : l1.Perm l2)
    (hdist : ∀ r ∈ l1, ∀ r2 ∈ l1, rowKeyGSS r = rowKeyGSS r2 → r.timestamp = r2.timestamp → r = r2)
    (hkey : ∀ r ∈ l1, ∀ r2 ∈ l1, rowKeyGSS r = rowKeyGSS r2) :
    List.insertionSort tsLe l1 = List.insertionSort tsLe l2 := by
  haveI : IsAntisymm GameRow tsOrd := ⟨by
    intro a b hab hba
    rcases hab with hab | rfl
    · rcases hba with hba | rfl
      · exact absurd hba (not_lt.mpr hab.le)
      · rfl
    · rfl⟩
  have hup : ∀ l : List GameRow, l.Perm l1 → List.Sorted tsLe l → List.Sorted tsOrd l := by
    intro l hl hsort
    refine hsort.imp_of_mem ?_
    intro a b ha hb hab
    by_cases heq : a = b
    · exact Or.inr heq
    · by_cases hts : a.timestamp = b.timestamp
      · exact absurd (hdist a (hl.mem_iff.mp ha) b (hl.mem_iff.mp hb)
          (hkey a (hl.mem_iff.mp ha) b (hl.mem_iff.mp hb)) hts) heq
      · exact Or.inl (lt_of_le_of_ne hab hts)
  exact List.eq_of_perm_of_sorted
    (((List.perm_insertionSort tsLe l1).trans hperm).trans
      (List.perm_insertionSort tsLe l2).symm)
    (hup _ (List.perm_insertionSort tsLe l1) (List.sorted_insertionSort tsLe l1))
    (hup _ ((List.perm_insertionSort tsLe l2).trans hperm.symm)
      (List.sorted_insertionSort tsLe l2))

/-- C8: the session reconstruction is deterministic and idempotent: two
runs over the same snapshot collection — presented in any order — yield
the identical (order-independent) set of sessions.  Stated over inputs
that are permutations of each other; following the spec (§4.3.2a, §9),
the order of exact-timestamp ties inside one group is unspecified, so
within each `(user_name, game_name, source)` group equal-timestamp
snapshots are required to be identical rows. -/
theorem C8_deterministic (rows1 rows2 : List GameRow)
    (hperm : rows1.Perm rows2)
    (hdist : ∀ r ∈ rows1, ∀ r2 ∈ rows1,
      rowKeyGSS r = rowKeyGSS r2 → r.timestamp = r2.timestamp → r = r2) :
    (gameSessions rows1).Perm (gameSessions rows2) := by
  have hpoint : ∀ k : String × String × String,
      gameGroupSessions k.1 k.2.1 k.2.2 (rows1.filter (fun r => decide (rowKeyGSS r = k))) =
      gameGroupSessions k.1 k.2.1 k.2.2 (rows2.filter (fun r => decide (rowKeyGSS r = k))) := by
    intro k
    have hfp : (rows1.filter (fun r => decide (rowKeyGSS r = k))).Perm
        (rows2.filter (fun r => decide (rowKeyGSS r = k))) := hperm.filter _
    have hsub : ∀ r ∈ rows1.filter (fun r => decide (rowKeyGSS r = k)), r ∈ rows1 :=
      fun r hr => (List.mem_filter.mp hr).1
    have hkeyf : ∀ r ∈ rows1.filter (fun r => decide (rowKeyGSS r = k)),
        rowKeyGSS r = k := by
      intro r hr
      have := (List.mem_filter.mp hr).2
      simpa using this
    have hsorteq := sorted_eq_of_perm hfp
      (fun r hr r2 hr2 => hdist r (hsub r hr) r2 (hsub r2 hr2))
      (fun r hr r2 hr2 => (hkeyf r hr).trans (hkeyf r2 hr2).symm)
    simp only [gameGroupSessions, hsorteq]
  have hkeys : ((rows1.map rowKeyGSS).dedup).Perm ((rows2.map rowKeyGSS).dedup) :=
    (hperm.map rowKeyGSS).dedup
  simp only [gameSessions]
  rw [← List.flatMap_def, ← List.flatMap_def]
  have hmapeq : (rows1.map rowKeyGSS).dedup.flatMap (fun k =>
        gameGroupSessions k.1 k.2.1 k.2.2 (rows1.filter (fun r => decide (rowKeyGSS r = k)))) =
      (rows1.map rowKeyGSS).dedup.flatMap (fun k =>
        gameGroupSessions k.1 k.2.1 k.2.2 (rows2.filter (fun r => decide (rowKeyGSS r = k)))) := by
    rw [List.flatMap_def, List.flatMap_def]
    exact congrArg List.flatten (List.map_congr_left (fun k _ => hpoint k))
  rw [hmapeq]
  exact hkeys.flatMap_right _

/-- Witness for C8 at a concrete two-row permutation pair. -/
theorem C8_deterministic_witness :
    (gameSessions [⟨0, "u", "g", "s", PF.fin 300⟩, ⟨900, "u", "g", "s", PF.fin 300⟩]).Perm
      (gameSessions [⟨900, "u", "g", "s", PF.fin 300⟩, ⟨0, "u", "g", "s", PF.fin 300⟩]) :=
  C8_deterministic _ _ (List.Perm.swap _ _ _) (by decide)

/-- C2 counterexample: in a group whose only nominal interval is the
invalid value -5, there is no valid nominal value, yet the computed group
default is -5 — the median is taken over `dropna()` (all non-null
values, invalid ones included), not over the valid values, and the
300-second fallback is not used. -/
theorem C2_counterexample :
    groupDefault [PF.fin (-5)] = PF.fin (-5) ∧
    [PF.fin (-5)].filter PF.isValid = [] ∧
    PF.fin (-5) ≠ PF.fin 300 := by
  refine ⟨by with_unfolding_all rfl, by with_unfolding_all rfl, ?_⟩
  intro h
  have : (-5 : ℚ) = 300 := PF.fin.inj h
  norm_num at this

/-- C2 (amended): the group default is the median of all present
(non-null, non-NaN) `nominal_interval` values of the group — whether
valid or not — and equals the system default 300 precisely when the
group has no present value at all; it coincides with the spec's
median-of-valid-values when every present value is valid. -/
theorem C2_amended (cells : List PF) :
    (cells.filter (fun c => !c.isNA) = [] → groupDefault cells = PF.fin 300) ∧
    (cells.filter (fun c => !c.isNA) ≠ [] →
      groupDefault cells = pfMedian (cells.filter (fun c => !c.isNA))) ∧
    (cells.filter (fun c => !c.isNA) ≠ [] →
      (∀ c ∈ cells, c.isNA = false → c.isValid = true) →
      groupDefault cells = pfMedian (cells.filter PF.isValid)) := by
  refine ⟨?_, ?_, ?_⟩
  · intro h
    simp [groupDefault, h]
  · intro h
    simp [groupDefault, List.isEmpty_iff, h]
  · intro h hval
    have hfeq : cells.filter (fun c => !c.isNA) = cells.filter PF.isValid := by
      apply List.filter_congr
      intro c hc
      cases hna : c.isNA with
      | true => cases c <;> simp_all [PF.isNA, PF.isValid]
      | false => simp [hval c hc hna]
    rw [← hfeq]
    simp [groupDefault, List.isEmpty_iff, h]

/-- Witness for C2 (amended) at a concrete group with one present and
one missing value. -/
theorem C2_amended_witness :
    groupDefault [PF.fin 7, PF.nan] =
      pfMedian ([PF.fin 7, PF.nan].filter (fun c => !c.isNA)) :=
  (C2_amended [PF.fin 7, PF.nan]).2.1 (by with_unfolding_all decide)

/-- C3 counterexample: in a group whose only nominal interval is `+inf`,
`dropna()` keeps the infinity, the median (hence the group default) is
`+inf`, the sanitizer substitutes that non-finite default, and the
engine emits a session whose `end_ts` is `+inf` — a malformed value is
used in session arithmetic and propagated into `end_ts`. -/
theorem C3_counterexample :
    gameGroupSessions "u" "g" "s" [⟨0, "u", "g", "s", PF.pinf⟩] =
      [⟨"u", "g", "s", 0, PF.pinf⟩] ∧
    effInterval PF.pinf (groupDefault [PF.pinf]) = PF.pinf ∧
    PF.isValid PF.pinf = false :=
  ⟨by with_unfolding_all rfl, by with_unfolding_all rfl, rfl⟩

/-- C3 (amended): the effective interval the engine's sanitizer produces
(`effInterval`, used by `gameStep` for both the current and the previous
snapshot) is the nominal value when that value is finite and strictly
positive and the group default otherwise; the substituted value is
itself finite and strictly positive whenever the group default is valid
— but not in general (see the counterexample). -/
theorem C3_amended (cell dflt : PF) :
    (cell.isValid = true → effInterval cell dflt = cell) ∧
    (cell.isValid = false → effInterval cell dflt = dflt) ∧
    (dflt.isValid = true → (effInterval cell dflt).isValid = true) := by
  refine ⟨fun h => by simp [effInterval, h], fun h => by simp [effInterval, h], fun h => ?_⟩
  by_cases hc : cell.isValid = true
  · simp [effInterval, hc]
  · simp only [effInterval, hc, if_false, Bool.false_eq_true]
    exact h

/-- Witness for C3 (amended): a malformed nominal value -5 is replaced
by the valid default 300, and the result is valid. -/
theorem C3_amended_witness :
    effInterval (PF.fin (-5)) (PF.fin 300) = PF.fin 300 ∧
    (effInterval (PF.fin (-5)) (PF.fin 300)).isValid = true :=
  ⟨(C3_amended (PF.fin (-5)) (PF.fin 300)).2.1 (by with_unfolding_all decide),
   (C3_amended (PF.fin (-5)) (PF.fin 300)).2.2 (by with_unfolding_all decide)⟩

/-- C6: for voice data, a snapshot whose channel identity differs from
that of the open accumulator always closes that session (emitting it iff
`end_ts > start_ts`) and opens a new one at the snapshot, regardless of
the gap; in particular snapshots at t=0 in channel A and t=300 in
channel B, each with interval 300, produce the two sessions
`[0, 300)`@A and `[300, 600)`@B even though the gap 300 does not exceed
the tolerance 600. -/
theorem C6_channel_switch :
    (∀ (dflt : PF) (st : VWalkSt) (row : VoiceRow) (cur : VAcc),
      st.current = some cur → chanOf row ≠ cur.channel_name →
      voiceStep dflt st row =
        ⟨(if PF.lt (PF.fin (cur.start_ts : ℚ)) cur.end_ts then st.sessions ++ [cur]
          else st.sessions),
         some ⟨chanOf row, row.timestamp,
           PF.add (PF.fin (row.timestamp : ℚ)) (effInterval row.collection_interval dflt)⟩,
         some row⟩) ∧
    voiceGroupSessions "u" [⟨0, "u", "A", PF.fin 300⟩, ⟨300, "u", "B", PF.fin 300⟩] =
      [⟨"u", "A", 0, PF.fin 300⟩, ⟨"u", "B", 300, PF.fin 600⟩] := by
  constructor
  · intro dflt st row cur hcur hne
    simp only [voiceStep, hcur]
    rw [if_neg (fun hand => hne hand.1)]
  · with_unfolding_all rfl

/-- Witness for C6 at a concrete accumulator in channel A and snapshot
in channel B. -/
theorem C6_channel_switch_witness :
    voiceStep (PF.fin 300)
        ⟨[], some ⟨"A", 0, PF.fin 300⟩, some ⟨0, "u", "A", PF.fin 300⟩⟩
        ⟨300, "u", "B", PF.fin 300⟩ =
      ⟨(if PF.lt (PF.fin ((0 : ℤ) : ℚ)) (PF.fin 300) then ([] : List VAcc) ++ [⟨"A", 0, PF.fin 300⟩]
        else []),
       some ⟨chanOf ⟨300, "u", "B", PF.fin 300⟩, 300,
         PF.add (PF.fin ((300 : ℤ) : ℚ)) (effInterval (PF.fin 300) (PF.fin 300))⟩,
       some ⟨300, "u", "B", PF.fin 300⟩⟩ :=
  C6_channel_switch.1 (PF.fin 300)
    ⟨[], some ⟨"A", 0, PF.fin 300⟩, some ⟨0, "u", "A", PF.fin 300⟩⟩
    ⟨300, "u", "B", PF.fin 300⟩ ⟨"A", 0, PF.fin 300⟩ rfl (by decide)

theorem pfMedian_const (v : ℚ) (l : List PF) (hall : ∀ x ∈ l, x = PF.fin v) (hne : l ≠ []) :
    pfMedian l = PF.fin v := by
  have hmem : ∀ x ∈ List.insertionSort pfLe l, x = PF.fin v :=
    fun x hx => hall x ((List.perm_insertionSort pfLe l).mem_iff.mp hx)
  have hpos : 0 < (List.insertionSort pfLe l).length := by
    rw [(List.perm_insertionSort pfLe l).length_eq]
    exact List.length_pos.mpr hne
  simp only [pfMedian]
  split
  · exact hmem _ (getD_mem_of_lt _ _ _ (Nat.div_lt_self hpos (by norm_num)))
  · rw [hmem _ (getD_mem_of_lt (List.insertionSort pfLe l)
        ((List.insertionSort pfLe l).length / 2 - 1) PF.nan
        (lt_of_le_of_lt (Nat.sub_le _ _) (Nat.div_lt_self hpos (by norm_num)))),
      hmem _ (getD_mem_of_lt (List.insertionSort pfLe l)
        ((List.insertionSort pfLe l).length / 2) PF.nan (Nat.div_lt_self hpos (by norm_num)))]
    show PF.fin ((v + v) / 2) = PF.fin v
    congr 1
    ring

theorem groupDefault_const300 (cells : List PF) (hall : ∀ x ∈ cells, x = PF.fin 300) :
    groupDefault cells = PF.fin 300 := by
  have hp : cells.filter (fun c => !c.isNA) = cells := by
    apply List.filter_eq_self.mpr
    intro a ha
    rw [hall a ha]
    rfl
  simp only [groupDefault, hp]
  by_cases h : cells.isEmpty
  · simp [h]
  · rw [if_neg h]
    exact pfMedian_const 300 cells hall (by simpa [List.isEmpty_iff] using h)

/-- C10: in the webserver pipeline the precedence merger keeps only the
columns timestamp, user_name, game_name, minutes_per_snapshot and source
(`MergedRow` — `collection_interval` is dropped), so
`_compute_game_activity_intervals` reinserts the constant 300.0; hence
every merged game-activity session is reconstructed with an effective
interval of exactly 300 seconds for every snapshot (first conjunct: the
pipeline equals the specification engine with every effective interval
equal to 300), and the result is independent of the per-snapshot
interval data still present in the merged rows (second conjunct). -/
theorem C10_webserver_interval (rows : List MergedRow) :
    computeGameActivityIntervals rows =
      (((rows.map toGameRow).map rowKeyGSS).dedup.map (fun k =>
        (specEngine ((List.insertionSort tsLe
            ((rows.map toGameRow).filter (fun r => decide (rowKeyGSS r = k)))).map
            (fun r => (r.timestamp, (300 : ℚ))))).map
          (fun q => Session.mk k.1 k.2.1 k.2.2 q.1 (PF.fin q.2)))).flatten ∧
    (∀ rows2 : List MergedRow, rows.map toGameRow = rows2.map toGameRow →
      computeGameActivityIntervals rows = computeGameActivityIntervals rows2) := by
  constructor
  · simp only [computeGameActivityIntervals, gameSessions]
    congr 1
    apply List.map_congr_left
    intro k hk
    have hcells : ∀ r ∈ (rows.map toGameRow).filter (fun r => decide (rowKeyGSS r = k)),
        r.collection_interval = PF.fin 300 := by
      intro r hr
      have hr1 : r ∈ rows.map toGameRow := (List.mem_filter.mp hr).1
      obtain ⟨m, -, rfl⟩ := List.mem_map.mp hr1
      rfl
    have hd : groupDefault ((List.insertionSort tsLe
        ((rows.map toGameRow).filter (fun r => decide (rowKeyGSS r = k)))).map
          (fun r => r.collection_interval)) = PF.fin 300 := by
      apply groupDefault_const300
      intro x hx
      obtain ⟨r, hr, rfl⟩ := List.mem_map.mp hx
      exact hcells r ((List.perm_insertionSort tsLe _).mem_iff.mp hr)
    rw [gameGroupSessions_eq_spec k.1 k.2.1 k.2.2 _ 300 hd]
    have hpairs : (List.insertionSort tsLe
        ((rows.map toGameRow).filter (fun r => decide (rowKeyGSS r = k)))).map
          (fun r => (r.timestamp, effQ r.collection_interval 300)) =
        (List.insertionSort tsLe
        ((rows.map toGameRow).filter (fun r => decide (rowKeyGSS r = k)))).map
          (fun r => (r.timestamp, (300 : ℚ))) := by
      apply List.map_congr_left
      intro r hr
      rw [hcells r ((List.perm_insertionSort tsLe _).mem_iff.mp hr)]
      norm_num [effQ]
    rw [hpairs]
  · intro rows2 h
    simp only [computeGameActivityIntervals]
    rw [h]

/-- Witness for C10: two merged rows that differ only in
`minutes_per_snapshot` (the last trace of recorded interval data)
produce identical session sets. -/
theorem C10_webserver_interval_witness :
    computeGameActivityIntervals [⟨0, "U", "X", PF.fin 5, "steam"⟩] =
      computeGameActivityIntervals [⟨0, "U", "X", PF.fin 7, "steam"⟩] :=
  (C10_webserver_interval [⟨0, "U", "X", PF.fin 5, "steam"⟩]).2
    [⟨0, "U", "X", PF.fin 7, "steam"⟩] (by with_unfolding_all rfl)

/-!  ## Decimal-key machinery for the precedence merge (C4)

The merge key is the string `user_name + '_' + str(timestamp)`.  The
decimal rendering of an integer contains no underscore and is injective,
so the key determines the `(user_name, timestamp)` pair. -/

theorem digitChar_isDigit (n : ℕ) (h : n < 10) : (Nat.digitChar n).isDigit = true := by
  interval_cases n <;> decide

theorem digitChar_val (n : ℕ) (h : n < 10) : (Nat.digitChar n).toNat - 48 = n := by
  interval_cases n <;> decide

theorem toDigitsCore_digits (fuel : ℕ) :
    ∀ (n : ℕ) (ds : List Char), (∀ c ∈ ds, c.isDigit = true) →
      ∀ c ∈ Nat.toDigitsCore 10 fuel n ds, c.isDigit = true := by
  induction fuel with
  | zero =>
      intro n ds hds
      simpa [Nat.toDigitsCore] using hds
  | succ fuel ih =>
      intro n ds hds c hc
      simp only [Nat.toDigitsCore] at hc
      by_cases h0 : n / 10 = 0
      · rw [if_pos h0] at hc
        rcases List.mem_cons.mp hc with rfl | hc
        · exact digitChar_isDigit _ (Nat.mod_lt _ (by norm_num))
        · exact hds c hc
      · rw [if_neg h0] at hc
        refine ih (n / 10) _ ?_ c hc
        intro c2 hc2
        rcases List.mem_cons.mp hc2 with rfl | hc2
        · exact digitChar_isDigit _ (Nat.mod_lt _ (by norm_num))
        · exact hds c2 hc2

theorem toDigitsCore_val (fuel : ℕ) :
    ∀ (n : ℕ) (ds : List Char), n < 10 ^ fuel →
      digitsVal (Nat.toDigitsCore 10 fuel n ds) = n * 10 ^ ds.length + digitsVal ds := by
  induction fuel with
  | zero =>
      intro n ds h
      interval_cases n
      simp [Nat.toDigitsCore]
  | succ fuel ih =>
      intro n ds h
      simp only [Nat.toDigitsCore]
      by_cases h0 : n / 10 = 0
      · rw [if_pos h0]
        have hn : n < 10 := by
          by_contra hge
          push_neg at hge
          have : 0 < n / 10 := Nat.div_pos hge (by norm_num)
          omega
        show digitsVal (Nat.digitChar (n % 10) :: ds) = n * 10 ^ ds.length + digitsVal ds
        simp only [digitsVal]
        rw [digitChar_val _ (Nat.mod_lt _ (by norm_num)), Nat.mod_eq_of_lt hn]
      · rw [if_neg h0]
        have hlt : n / 10 < 10 ^ fuel := by
          rw [Nat.div_lt_iff_lt_mul (by norm_num)]
          calc n < 10 ^ (fuel + 1) := h
            _ = 10 ^ fuel * 10 := by ring
        rw [ih (n / 10) _ hlt]
        simp only [digitsVal, List.length_cons]
        rw [digitChar_val _ (Nat.mod_lt _ (by norm_num))]
        have hdm : n = 10 * (n / 10) + n % 10 := (Nat.div_add_mod n 10).symm
        conv_rhs => rw [hdm]
        ring

theorem toDigits_val (n : ℕ) : digitsVal (Nat.toDigits 10 n) = n := by
  have h : n < 10 ^ (n + 1) :=
    lt_of_lt_of_le (Nat.lt_pow_self (by norm_num) n)
      (Nat.pow_le_pow_right (by norm_num) (Nat.le_succ n))
  simpa [Nat.toDigits, digitsVal] using toDigitsCore_val (n + 1) n [] h

theorem natRepr_inj {m n : ℕ} (h : Nat.repr m = Nat.repr n) : m = n := by
  simp only [Nat.repr] at h
  rw [← toDigits_val m, ← toDigits_val n, List.asString_inj.mp h]

theorem natRepr_all_digits (n : ℕ) : ∀ c ∈ (Nat.repr n).data, c.isDigit = true := by
  intro c hc
  have hdata : (Nat.repr n).data = Nat.toDigits 10 n := rfl
  rw [hdata] at hc
  exact toDigitsCore_digits (n + 1) n [] (by simp) c hc

theorem intToString_no_underscore (z : ℤ) : '_' ∉ (toString z).data := by
  intro hc
  cases z with
  | ofNat n =>
      have hdata : (toString (Int.ofNat n)).data = (Nat.repr n).data := rfl
      rw [hdata] at hc
      exact absurd (natRepr_all_digits n '_' hc) (by decide)
  | negSucc n =>
      have hdata : (toString (Int.negSucc n)).data = '-' :: (Nat.repr (n + 1)).data := rfl
      rw [hdata] at hc
      rcases List.mem_cons.mp hc with h | h
      · cases h
      · exact absurd (natRepr_all_digits (n + 1) '_' h) (by decide)

theorem intToString_inj {a b : ℤ} (h : toString a = toString b) : a = b := by
  cases a with
  | ofNat m =>
      cases b with
      | ofNat n =>
          have hrepr : Nat.repr m = Nat.repr n := h
          exact congrArg Int.ofNat (natRepr_inj hrepr)
      | negSucc n =>
          exfalso
          have hd : (Nat.repr m).data = '-' :: (Nat.repr (n + 1)).data := congrArg String.data h
          have hmem : '-' ∈ (Nat.repr m).data := by rw [hd]; exact List.mem_cons_self _ _
          exact absurd (natRepr_all_digits m '-' hmem) (by decide)
  | negSucc m =>
      cases b with
      | ofNat n =>
          exfalso
          have hd : (Nat.repr n).data = '-' :: (Nat.repr (m + 1)).data :=
            congrArg String.data h.symm
          have hmem : '-' ∈ (Nat.repr n).data := by rw [hd]; exact List.mem_cons_self _ _
          exact absurd (natRepr_all_digits n '-' hmem) (by decide)
      | negSucc n =>
          have hd : '-' :: (Nat.repr (m + 1)).data = '-' :: (Nat.repr (n + 1)).data :=
            congrArg String.data h
          have hrepr : Nat.repr (m + 1) = Nat.repr (n + 1) :=
            String.ext (List.cons.injEq .. ▸ hd).2
          have hmn := natRepr_inj hrepr
          exact congrArg Int.negSucc (by omega)

theorem append_underscore_inj :
    ∀ (a b s t : List Char), '_' ∉ s → '_' ∉ t →
      a ++ '_' :: s = b ++ '_' :: t → a = b ∧ s = t := by
  intro a
  induction a with
  | nil =>
      intro b s t hs ht h
      cases b with
      | nil =>
          simp only [List.nil_append, List.cons.injEq] at h
          exact ⟨rfl, h.2⟩
      | cons c b =>
          simp only [List.nil_append, List.cons_append, List.cons.injEq] at h
          exact absurd (h.2 ▸ List.mem_append.mpr (Or.inr (List.mem_cons_self _ _))) hs
  | cons c a ih =>
      intro b s t hs ht h
      cases b with
      | nil =>
          simp only [List.nil_append, List.cons_append, List.cons.injEq] at h
          exact absurd (h.2 ▸ List.mem_append.mpr (Or.inr (List.mem_cons_self _ _))) ht
      | cons c2 b =>
          simp only [List.cons_append, List.cons.injEq] at h
          obtain ⟨rfl, h2⟩ := h
          obtain ⟨h3, h4⟩ := ih b s t hs ht h2
          exact ⟨by rw [h3], h4⟩

theorem rowKey_eq_iff (r1 r2 : MergedRow) :
    rowKey r1 = rowKey r2 ↔ (r1.user_name = r2.user_name ∧ r1.timestamp = r2.timestamp) := by
  constructor
  · intro h
    have hd : r1.user_name.data ++ '_' :: (toString r1.timestamp).data =
        r2.user_name.data ++ '_' :: (toString r2.timestamp).data := by
      have h2 := congrArg String.data h
      simpa [rowKey, String.data_append] using h2
    obtain ⟨h1, h2⟩ := append_underscore_inj _ _ _ _
      (intToString_no_underscore r1.timestamp) (intToString_no_underscore r2.timestamp) hd
    exact ⟨String.ext h1, intToString_inj (String.ext h2)⟩
  · rintro ⟨h1, h2⟩
    simp [rowKey, h1, h2]

theorem mem_computeGameActivity (steam discord : List GRow0) (x : MergedRow) :
    x ∈ computeGameActivity steam discord ↔
      (x ∈ steam.map (tagSource "steam") ++ discord.map (tagSource "discord") ∧
        (x.source = "steam" ∨ rowKey x ∉ (steam.map (tagSource "steam")).map rowKey)) := by
  simp only [computeGameActivity]
  rw [(List.perm_insertionSort mergeOrd2 _).mem_iff, List.mem_filter,
    (List.perm_insertionSort mergeOrd _).mem_iff]
  simp

/-- C4: in the source-precedence merge of activity snapshots, every
secondary (discord) snapshot whose `(subject, timestamp)` occurs in the
primary (steam) stream is discarded even when it reports a different
game title; every primary snapshot is kept unconditionally; and every
secondary snapshot whose `(subject, timestamp)` has no primary
counterpart is kept. -/
theorem C4_precedence (steam discord : List GRow0) :
    (∀ r ∈ steam, tagSource "steam" r ∈ computeGameActivity steam discord) ∧
    (∀ r ∈ discord,
      (∃ p ∈ steam, p.user_name = r.user_name ∧ p.timestamp = r.timestamp) →
      tagSource "discord" r ∉ computeGameActivity steam discord) ∧
    (∀ r ∈ discord,
      (¬ ∃ p ∈ steam, p.user_name = r.user_name ∧ p.timestamp = r.timestamp) →
      tagSource "discord" r ∈ computeGameActivity steam discord) := by
  refine ⟨?_, ?_, ?_⟩
  · intro r hr
    rw [mem_computeGameActivity]
    exact ⟨List.mem_append.mpr (Or.inl (List.mem_map_of_mem _ hr)), Or.inl rfl⟩
  · rintro r hr ⟨p, hp, hu, ht⟩ hmem
    rw [mem_computeGameActivity] at hmem
    rcases hmem.2 with hsteam | hnk
    · have : "discord" = "steam" := hsteam
      simp at this
    · apply hnk
      refine List.mem_map.mpr ⟨tagSource "steam" p, List.mem_map_of_mem _ hp, ?_⟩
      rw [rowKey_eq_iff]
      exact ⟨hu, ht⟩
  · intro r hr hno
    rw [mem_computeGameActivity]
    refine ⟨List.mem_append.mpr (Or.inr (List.mem_map_of_mem _ hr)), Or.inr ?_⟩
    intro hk
    obtain ⟨y, hy, hyx⟩ := List.mem_map.mp hk
    obtain ⟨p, hp, rfl⟩ := List.mem_map.mp hy
    rw [rowKey_eq_iff] at hyx
    exact hno ⟨p, hp, hyx.1, hyx.2⟩

/-- Witness for C4: one primary row, one clashing secondary row at the
same `(subject, timestamp)` with a different game, and one
non-clashing secondary row. -/
theorem C4_precedence_witness :
    tagSource "steam" ⟨100, "U", "X", PF.fin 5⟩ ∈
      computeGameActivity [⟨100, "U", "X", PF.fin 5⟩]
        [⟨100, "U", "Y", PF.fin 5⟩, ⟨200, "U", "Z", PF.fin 5⟩] ∧
    tagSource "discord" ⟨100, "U", "Y", PF.fin 5⟩ ∉
      computeGameActivity [⟨100, "U", "X", PF.fin 5⟩]
        [⟨100, "U", "Y", PF.fin 5⟩, ⟨200, "U", "Z", PF.fin 5⟩] ∧
    tagSource "discord" ⟨200, "U", "Z", PF.fin 5⟩ ∈
      computeGameActivity [⟨100, "U", "X", PF.fin 5⟩]
        [⟨100, "U", "Y", PF.fin 5⟩, ⟨200, "U", "Z", PF.fin 5⟩] :=
  ⟨(C4_precedence _ _).1 _ (List.mem_singleton.mpr rfl),
   (C4_precedence _ _).2.1 _ (List.mem_cons_self _ _)
     ⟨⟨100, "U", "X", PF.fin 5⟩, List.mem_singleton.mpr rfl, rfl, rfl⟩,
   (C4_precedence _ _).2.2 _ (List.mem_cons_of_mem _ (List.mem_singleton.mpr rfl))
     (by
       rintro ⟨p, hp, hu, ht⟩
       rw [List.mem_singleton] at hp
       subst hp
       exact absurd ht (by decide))⟩

end GnagStats
